import Mathlib

/-!
Verification of the waveform-generator script (`generate_waveform.py`).

The script has two halves:
* URL handling: `get_video_id` extracts a video identifier from a parsed
  URL, either from the `v` query parameter (youtube.com hosts) or from the
  path with leading slashes stripped (youtu.be hosts).
* The waveform pipeline `generate_waveform`: validity check on the decoded
  buffer, stride downsampling, division by the maximum absolute value, a
  four-way split, and per-segment rendering.

Strings are modelled as `List Char`; audio samples as exact rationals `ℚ`.
IEEE results that are not finite numbers (NaN from a zero divisor) are
modelled by `Option ℚ` with `none` for the non-finite case.
-/

namespace YTWaveform

/-- `startsWith pre l` is true when `pre` is an initial run of `l`
(the usual string-prefix test used to build the substring test below). -/
def startsWith : List Char → List Char → Bool
  | [], _ => true
  | _ :: _, [] => false
  | a :: as, b :: bs => a = b && startsWith as bs

/-- Python's `needle in hay` substring test on strings. -/
def isSubstring (needle : List Char) : List Char → Bool
  | [] => needle.isEmpty
  | c :: rest => startsWith needle (c :: rest) || isSubstring needle rest

/-- Python's `qs.split(sep)` for a one-character separator: the pieces of
`qs` between occurrences of `c` (an empty input gives one empty piece). -/
def splitOnChar (c : Char) : List Char → List (List Char)
  | [] => [[]]
  | x :: xs =>
    match splitOnChar c xs, decide (x = c) with
    | r, true => [] :: r
    | [], false => [[x]]
    | h :: t, false => (x :: h) :: t

/-- Python's `s.split(c, 1)` when `c` occurs: the part before the first
occurrence of `c` and the part after it; `none` when `c` does not occur. -/
def splitFirstOn (c : Char) : List Char → Option (List Char × List Char)
  | [] => none
  | x :: xs =>
    if x = c then some ([], xs)
    else match splitFirstOn c xs with
      | none => none
      | some (a, b) => some (x :: a, b)

/-- `urllib.parse.parse_qsl` with default arguments, as called by
`get_video_id`: split the query on `&`, drop empty chunks, drop chunks
without `=`, split each remaining chunk at its first `=`, and drop pairs
whose value is empty (`keep_blank_values` is false).  Percent- and
plus-decoding are omitted: the claims concern literal parameter values. -/
def parse_qsl (qs : List Char) : List (List Char × List Char) :=
  (splitOnChar '&' qs).filterMap fun chunk =>
    match chunk, splitFirstOn '=' chunk with
    | [], _ => none
    | _ :: _, none => none
    | _ :: _, some (n, v) => if v = [] then none else some (n, v)

/-- `parse_qs(qs).get(name, [None])[0]`: the value of the first pair of the
parsed query whose name is `name`, when one exists (`parse_qs` groups the
`parse_qsl` pairs by name in order, so the head of a name's group is its
first occurrence). -/
def qsFirstValue (name : List Char) (qs : List Char) : Option (List Char) :=
  ((parse_qsl qs).filter fun p => decide (p.1 = name)).head?.map Prod.snd

/-- The components of `urllib.parse.urlparse` that `get_video_id` reads. -/
structure ParsedUrl where
  netloc : List Char
  path : List Char
  query : List Char

/-- `get_video_id` on a parsed URL: for a netloc containing `youtube.com`,
the first value of the `v` query parameter (or `None` when absent); else,
for a netloc containing `youtu.be`, the path with all leading `/` stripped
(`lstrip`); else `None`. -/
def get_video_id (u : ParsedUrl) : Option (List Char) :=
  if isSubstring ("youtube.com".toList) u.netloc then
    qsFirstValue ("v".toList) u.query
  else if isSubstring ("youtu.be".toList) u.netloc then
    some (u.path.dropWhile fun c => decide (c = '/'))
  else none

/-- `np.max(np.abs(y))`: the largest absolute value of the list.  It is
total, giving `0` on `[]`; the call site only reaches it with a non-empty
list (the empty buffer is rejected earlier), and on non-empty lists this
agrees with numpy since absolute values are never below `0`. -/
def maxAbs : List ℚ → ℚ
  | [] => 0
  | x :: xs => max |x| (maxAbs xs)

/-- IEEE float division as numpy performs it elementwise: a zero divisor
yields a non-finite result (NaN for `0/0`, ±Inf otherwise), modelled as
`none`; otherwise the exact quotient. -/
def fdiv (x m : ℚ) : Option ℚ :=
  if m = 0 then none else some (x / m)

/-- `y_normalized = y_downsampled / np.max(np.abs(y_downsampled))`:
every sample divided by the largest absolute value of the list itself.
The source performs this division unconditionally. -/
def normalize (l : List ℚ) : List (Option ℚ) :=
  l.map fun x => fdiv x (maxAbs l)

/-- Helper for stride slicing: with countdown `0` keep the element and
restart the countdown at `s - 1`, else skip and decrement. -/
def everyNthAux (s : ℕ) : ℕ → List α → List α
  | _, [] => []
  | 0, x :: xs => x :: everyNthAux s (s - 1) xs
  | n + 1, _ :: xs => everyNthAux s n xs

/-- Python's slice `y[::s]` for a stride `s ≥ 1`: the elements at indices
`0, s, 2*s, …` in their original order. -/
def everyNth (s : ℕ) (l : List α) : List α :=
  everyNthAux s 0 l

/-- The four slices `[:q]`, `[q:2q]`, `[2q:3q]`, `[3q:]` of the list,
where `q` is its length divided by 4 (integer division). -/
def quarters (l : List α) : List (List α) :=
  let q := l.length / 4
  [l.take q, (l.drop q).take q, (l.drop (2 * q)).take q, l.drop (3 * q)]

/-- The two ways a `generate_waveform` call dies in the source: the
`ValueError` raised for an invalid or empty buffer (the script's
degenerate-audio error), and the `ZeroDivisionError` raised by
`total_width / (len(quarter) - 1)` when a quarter has exactly one
element. -/
inductive GWErr
  | invalidAudio
  | zeroDivision
deriving DecidableEq

/-- `abs` applied through the float model: the bar height `abs(value)`,
still non-finite when the value is. -/
def optAbs : Option ℚ → Option ℚ
  | none => none
  | some x => some |x|

/-- One saved image: each bar's x-coordinate `j * line_spacing` paired
with its height `abs(value)` (drawn from `-abs` to `+abs`). -/
structure RenderedImage where
  bars : List (ℚ × Option ℚ)
deriving DecidableEq

/-- The body of the rendering loop for one quarter:
`line_spacing = total_width / (len(quarter) - 1)` — a `ZeroDivisionError`
when the quarter has exactly one element (`len - 1` is an int, and int
true-division by zero raises) — then one vertical bar per value at
`x = j * line_spacing` with height `abs(value)`. -/
def renderQuarter (total_width : ℚ) (quarter : List (Option ℚ)) :
    Except GWErr RenderedImage :=
  let d : ℤ := (quarter.length : ℤ) - 1
  if d = 0 then Except.error GWErr.zeroDivision
  else
    let line_spacing : ℚ := total_width / (d : ℚ)
    Except.ok ⟨quarter.enum.map fun p => ((p.1 : ℚ) * line_spacing, optAbs p.2)⟩

/-- The rendering loop over the four quarters: images are saved one by
one, and an exception stops the loop, keeping the images already saved. -/
def renderAll (total_width : ℚ) :
    List (List (Option ℚ)) → List RenderedImage × Option GWErr
  | [] => ([], none)
  | q :: qs =>
    match renderQuarter total_width q with
    | Except.error e => ([], some e)
    | Except.ok img =>
      match renderAll total_width qs with
      | (imgs, err) => (img :: imgs, err)

/-- `generate_waveform` on the decoded buffer `y`: raise for an empty
buffer, downsample with stride `max(1, len(y) // num_lines)`, divide by
the maximum absolute value, split into quarters and render each.  The
result is the list of images actually saved and the exception, if any,
that ended the call. -/
def generate_waveform (y : List ℚ) (num_lines : ℕ) (total_width : ℚ) :
    List RenderedImage × Option GWErr :=
  if y.length = 0 then ([], some GWErr.invalidAudio)
  else renderAll total_width
    (quarters (normalize (everyNth (max 1 (y.length / num_lines)) y)))

/-- `generate_waveform` at its default arguments `num_lines=600`,
`total_width=10`. -/
def generate_waveform_default (y : List ℚ) : List RenderedImage × Option GWErr :=
  generate_waveform y 600 10

/-- The observable side effects of the acquisition path: directory
creation, the `yt-dlp` subprocess run, and the rename of the downloaded
file. -/
inductive FsEffect
  | mkdir (d : List Char)
  | runDownloader (url : List Char)
  | rename (src dst : List Char)
deriving DecidableEq

/-- `os.path.join` for one separator. -/
def joinPath (d f : List Char) : List Char :=
  d ++ '/' :: f

/-- The effects of `download_audio(url, output_dir, output_file)`:
create `output_dir` unless it exists, run the downloader, and rename the
downloaded file to `output_dir/output_file` when it is present.  `fs` is
the set of paths existing at entry; `fsAfter` the paths existing after
the subprocess; `dlPath` the title-derived `.wav` path the subprocess
writes. -/
def download_audio_effects (fs fsAfter : List (List Char))
    (url output_dir output_file dlPath : List Char) : List FsEffect :=
  (if output_dir ∈ fs then [] else [FsEffect.mkdir output_dir]) ++
  [FsEffect.runDownloader url] ++
  (if dlPath ∈ fsAfter then [FsEffect.rename dlPath (joinPath output_dir output_file)] else [])

/-- The acquisition step of `main`: when `audio_file` already exists it
only prints a message; otherwise it calls
`download_audio(url, video_id, audio_file)`. -/
def mainAcquire_effects (fs fsAfter : List (List Char))
    (url video_id audio_file dlPath : List Char) : List FsEffect :=
  if audio_file ∈ fs then []
  else download_audio_effects fs fsAfter url video_id audio_file dlPath

/-- The stride `max(1, N // num_lines)` at the default `num_lines=600`,
for a buffer of `N` samples. -/
def defaultStride (N : ℕ) : ℕ :=
  max 1 (N / 600)

/-- The downsampling step `y[::max(1, len(y) // 600)]` at the default
target point count. -/
def downsample600 (y : List ℚ) : List ℚ :=
  everyNth (defaultStride y.length) y

/-- A concrete 2400-sample buffer (the samples `0, 1, …, 2399`). -/
def sample2400 : List ℚ :=
  (List.range 2400).map fun n : ℕ => (n : ℚ)

theorem maxAbs_nonneg (l : List ℚ) : 0 ≤ maxAbs l := by
  induction l with
  | nil => simp [maxAbs]
  | cons x xs ih => exact le_max_of_le_right ih

theorem abs_le_maxAbs {x : ℚ} {l : List ℚ} (hx : x ∈ l) : |x| ≤ maxAbs l := by
  induction l with
  | nil => cases hx
  | cons y ys ih =>
    rcases List.mem_cons.mp hx with h | h
    · subst h; exact le_max_left _ _
    · exact le_trans (ih h) (le_max_right _ _)

theorem maxAbs_pos {x : ℚ} {l : List ℚ} (hx : x ∈ l) (hne : x ≠ 0) :
    0 < maxAbs l :=
  lt_of_lt_of_le (abs_pos.mpr hne) (abs_le_maxAbs hx)

theorem maxAbs_map_div (l : List ℚ) {m : ℚ} (hm : 0 < m) :
    maxAbs (l.map fun x => x / m) = maxAbs l / m := by
  induction l with
  | nil => simp [maxAbs]
  | cons x xs ih =>
    simp only [List.map_cons, maxAbs, ih]
    rw [abs_div, abs_of_pos hm, max_div_div_right hm.le]

theorem normalize_length (l : List ℚ) : (normalize l).length = l.length := by
  simp [normalize]

theorem quarters_flatten (l : List α) : (quarters l).flatten = l := by
  simp only [quarters, List.flatten_cons, List.flatten_nil]
  rw [List.append_nil,
    show 3 * (l.length / 4) = 2 * (l.length / 4) + l.length / 4 from by ring,
    ← List.drop_drop, List.take_append_drop,
    show 2 * (l.length / 4) = l.length / 4 + l.length / 4 from by ring,
    ← List.drop_drop, List.take_append_drop, List.take_append_drop]

theorem quarters_map_length (l : List α) :
    (quarters l).map List.length =
      [l.length / 4, l.length / 4, l.length / 4,
        l.length - 3 * (l.length / 4)] := by
  simp only [quarters, List.map_cons, List.map_nil, List.length_take,
    List.length_drop, List.cons.injEq, and_true]
  omega

theorem everyNthAux_get? (s : ℕ) (hs : 1 ≤ s) (l : List α) (c k : ℕ) :
    (everyNthAux s c l).get? k = l.get? (c + k * s) := by
  induction l generalizing c k with
  | nil => simp [everyNthAux]
  | cons x xs ih =>
    cases c with
    | zero =>
      cases k with
      | zero => simp [everyNthAux]
      | succ k =>
        have hidx : 0 + (k + 1) * s = (s - 1 + k * s) + 1 := by
          cases s with
          | zero => omega
          | succ t => ring_nf; omega
        rw [hidx]
        simpa [everyNthAux] using ih (s - 1) k
    | succ n =>
      have hidx : n + 1 + k * s = (n + k * s) + 1 := by omega
      rw [hidx]
      simpa [everyNthAux] using ih n k

theorem everyNthAux_length (s : ℕ) (hs : 1 ≤ s) (l : List α) (c : ℕ) :
    (everyNthAux s c l).length = (l.length - c + s - 1) / s := by
  induction l generalizing c with
  | nil =>
    have h0 : (([] : List α).length - c + s - 1) = s - 1 := by simp
    rw [h0]
    simp [everyNthAux, Nat.div_eq_of_lt (show s - 1 < s by omega)]
  | cons x xs ih =>
    cases c with
    | zero =>
      have hrhs : ((x :: xs).length - 0 + s - 1) / s = xs.length / s + 1 := by
        rw [show (x :: xs).length - 0 + s - 1 = xs.length + s from by
          simp only [List.length_cons]; omega]
        exact Nat.add_div_right _ (by omega)
      rw [hrhs]
      simp only [everyNthAux, List.length_cons, ih (s - 1)]
      rcases le_or_lt (s - 1) xs.length with h | h
      · rw [show xs.length - (s - 1) + s - 1 = xs.length from by omega]
      · rw [show xs.length - (s - 1) + s - 1 = s - 1 from by omega,
          Nat.div_eq_of_lt (show s - 1 < s by omega),
          Nat.div_eq_of_lt (show xs.length < s by omega)]
    | succ n =>
      simp only [everyNthAux, ih n, List.length_cons]
      rw [show xs.length + 1 - (n + 1) = xs.length - n from by omega]

theorem everyNth_get? (s : ℕ) (hs : 1 ≤ s) (l : List α) (k : ℕ) :
    (everyNth s l).get? k = l.get? (k * s) := by
  simpa using everyNthAux_get? s hs l 0 k

theorem everyNth_length (s : ℕ) (hs : 1 ≤ s) (l : List α) :
    (everyNth s l).length = (l.length + s - 1) / s := by
  simpa using everyNthAux_length s hs l 0

theorem everyNth_one (l : List α) : everyNth 1 l = l := by
  rw [everyNth]
  induction l with
  | nil => rfl
  | cons x xs ih => simpa [everyNthAux] using ih

theorem renderQuarter_len1 (w : ℚ) (q : List (Option ℚ)) (h : q.length = 1) :
    renderQuarter w q = Except.error GWErr.zeroDivision := by
  simp [renderQuarter, h]

theorem renderAll_cons_error (w : ℚ) (q : List (Option ℚ))
    (qs : List (List (Option ℚ))) (e : GWErr)
    (h : renderQuarter w q = Except.error e) :
    renderAll w (q :: qs) = ([], some e) := by
  simp [renderAll, h]

theorem renderAll_quarters_len1 (w : ℚ) (l : List (Option ℚ))
    (h : l.length / 4 = 1) :
    renderAll w (quarters l) = ([], some GWErr.zeroDivision) := by
  have h1 : (l.take (l.length / 4)).length = 1 := by
    rw [List.length_take]
    omega
  simp only [quarters]
  exact renderAll_cons_error w _ _ _ (renderQuarter_len1 w _ h1)

/-- C1: the claim says an all-zero buffer makes the renderer fail with the
degenerate-audio error instead of completing normalization.  The source has
no such guard: on the all-zero 8-sample buffer the call runs to completion
with no error, saves all 4 images, every bar height is a non-finite value
(NaN, from dividing by the zero maximum), and every normalized sample is
non-finite. -/
theorem silent_buffer_produces_nan :
    (generate_waveform_default [(0:ℚ), 0, 0, 0, 0, 0, 0, 0]).2 = none ∧
    (generate_waveform_default [(0:ℚ), 0, 0, 0, 0, 0, 0, 0]).1.length = 4 ∧
    ((generate_waveform_default [(0:ℚ), 0, 0, 0, 0, 0, 0, 0]).1.all fun img =>
        img.bars.all fun b => b.2.isNone) = true ∧
    ((normalize [(0:ℚ), 0, 0, 0, 0, 0, 0, 0]).all Option.isNone) = true := by
  decide

/-- C2: for a valid path-form URL on the short host — netloc containing
`youtu.be` (and not `youtube.com`), path a single non-empty segment after
the leading slash — `get_video_id` returns exactly that first path segment
with the leading slash stripped. -/
theorem get_video_id_shortHost (u : ParsedUrl) (seg : List Char)
    (h1 : isSubstring ("youtube.com".toList) u.netloc = false)
    (h2 : isSubstring ("youtu.be".toList) u.netloc = true)
    (h3 : u.path = '/' :: seg)
    (h4 : '/' ∉ seg) (h5 : seg ≠ []) :
    get_video_id u = some seg := by
  unfold get_video_id
  rw [h1, h2]
  simp only [Bool.false_eq_true, if_false, if_true]
  rw [h3]
  cases seg with
  | nil => simp [List.dropWhile]
  | cons c cs =>
    have hc : ¬(c = '/') := fun hcc => h4 (hcc ▸ List.mem_cons_self c cs)
    simp [List.dropWhile, hc]

theorem get_video_id_shortHost_witness :
    get_video_id ⟨"youtu.be".toList, '/' :: "abc12XYZ".toList, []⟩
      = some ("abc12XYZ".toList) :=
  get_video_id_shortHost _ _ (by decide) (by decide) rfl (by decide) (by decide)

/-- C3: the four slices of any normalized downsampled sequence are
contiguous and order-preserving with boundaries at `q = length / 4`:
their concatenation in order reproduces the sequence exactly and their
lengths are `[q, q, q, length - 3*q]`; on a length-10 sequence the
segment lengths are `[2, 2, 2, 4]`. -/
theorem quarters_partition :
    (∀ l : List (Option ℚ),
        (quarters l).flatten = l ∧
        (quarters l).map List.length =
          [l.length / 4, l.length / 4, l.length / 4,
            l.length - 3 * (l.length / 4)]) ∧
    (quarters ((List.range 10).map fun n : ℕ => some ((n : ℚ)))).map List.length
      = [2, 2, 2, 4] :=
  ⟨fun l => ⟨quarters_flatten l, quarters_map_length l⟩, by decide⟩

/-- C4: for a downsampled sequence holding at least one nonzero sample,
dividing every sample by the maximum absolute value yields finite values
whose maximum absolute value is exactly 1 and which all lie in
`[-1, 1]`. -/
theorem normalize_unit_max (l : List ℚ) (h : ∃ x ∈ l, x ≠ 0) :
    ∃ l' : List ℚ, normalize l = l'.map some ∧ maxAbs l' = 1 ∧
      ∀ y ∈ l', -1 ≤ y ∧ y ≤ 1 := by
  obtain ⟨x, hx, hxne⟩ := h
  have hm : 0 < maxAbs l := maxAbs_pos hx hxne
  refine ⟨l.map fun v => v / maxAbs l, ?_, ?_, ?_⟩
  · have hf : (fun v => fdiv v (maxAbs l)) = fun v => some (v / maxAbs l) := by
      funext v
      simp [fdiv, hm.ne']
    rw [normalize, hf, List.map_map]
    rfl
  · rw [maxAbs_map_div l hm, div_self hm.ne']
  · intro y hy
    obtain ⟨v, hv, rfl⟩ := List.mem_map.mp hy
    have h1 : |v / maxAbs l| ≤ 1 := by
      rw [abs_div, abs_of_pos hm]
      exact div_le_one_of_le₀ (abs_le_maxAbs hv) hm.le
    exact abs_le.mp h1

theorem normalize_unit_max_witness :
    (∃ x ∈ [(3:ℚ), -2, 0], x ≠ 0) ∧
    ∃ l' : List ℚ, normalize [(3:ℚ), -2, 0] = l'.map some ∧ maxAbs l' = 1 ∧
      ∀ y ∈ l', -1 ≤ y ∧ y ≤ 1 :=
  ⟨by decide, normalize_unit_max _ (by decide)⟩

/-- C5: with the default target point count 600, the downsampled waveform
is the sub-sequence at indices `0, s, 2*s, …` (stride `s = max 1 (N/600)`)
in original order, and on a 2400-sample buffer the stride is 4, the
downsampled length is 600, and each of the four segments has length
150. -/
theorem downsample_indexing_default :
    (∀ (l : List ℚ) (k : ℕ),
        (downsample600 l).get? k = l.get? (k * defaultStride l.length)) ∧
    defaultStride sample2400.length = 4 ∧
    (downsample600 sample2400).length = 600 ∧
    (quarters (normalize (downsample600 sample2400))).map List.length
      = [150, 150, 150, 150] := by
  have hlen : sample2400.length = 2400 := by
    rw [sample2400, List.length_map, List.length_range]
  have hstride : defaultStride sample2400.length = 4 := by
    rw [hlen]
    decide
  refine ⟨fun l k => everyNth_get? _ (le_max_left _ _) l k, hstride, ?_, ?_⟩
  · show (everyNth (defaultStride sample2400.length) sample2400).length = 600
    rw [hstride, everyNth_length 4 (by omega), hlen]
  · show (quarters (normalize
        (everyNth (defaultStride sample2400.length) sample2400))).map List.length
      = [150, 150, 150, 150]
    rw [quarters_map_length, normalize_length, hstride,
      everyNth_length 4 (by omega), hlen]

/-- C6: for a query-form URL — netloc containing `youtube.com` — whose
parsed query string carries the parameter `v` with a non-empty value (and
no earlier `v` pair), `get_video_id` returns exactly that value. -/
theorem get_video_id_queryParam (u : ParsedUrl) (val : List Char)
    (pre post : List (List Char × List Char))
    (h1 : isSubstring ("youtube.com".toList) u.netloc = true)
    (h2 : parse_qsl u.query = pre ++ ("v".toList, val) :: post)
    (h3 : ∀ p ∈ pre, p.1 ≠ "v".toList)
    (h4 : val ≠ []) :
    get_video_id u = some val := by
  unfold get_video_id
  rw [h1]
  simp only [if_true]
  unfold qsFirstValue
  rw [h2, List.filter_append]
  have hpre : pre.filter (fun p => decide (p.1 = "v".toList)) = [] :=
    List.filter_eq_nil_iff.mpr fun a ha => by simpa using h3 a ha
  rw [hpre]
  simp [List.filter_cons]

theorem get_video_id_queryParam_witness :
    get_video_id ⟨"www.youtube.com".toList, "/watch".toList,
        "t=4&v=abc12XYZ".toList⟩ = some ("abc12XYZ".toList) :=
  get_video_id_queryParam _ ("abc12XYZ".toList)
    [("t".toList, "4".toList)] [] (by decide) (by decide)
    (by decide) (by decide)

/-- C7: when the canonical audio file already exists, the acquisition
step of `main` performs no side effects at all: no directory creation,
no downloader subprocess, no rename. -/
theorem acquisition_skipped (fs fsAfter : List (List Char))
    (url video_id audio_file dlPath : List Char)
    (h : audio_file ∈ fs) :
    mainAcquire_effects fs fsAfter url video_id audio_file dlPath = [] := by
  simp [mainAcquire_effects, h]

theorem acquisition_skipped_witness :
    mainAcquire_effects ["abc12.wav".toList] [] ("u".toList)
      ("abc12".toList) ("abc12.wav".toList) ("t.wav".toList) = [] :=
  acquisition_skipped _ _ _ _ _ _ (by decide)

/-- C8: an empty decoded buffer makes `generate_waveform` fail with the
degenerate-audio error before any downsampling, and no image is
produced. -/
theorem empty_buffer_invalidAudio (y : List ℚ) (h : y.length = 0) :
    generate_waveform_default y = ([], some GWErr.invalidAudio) := by
  unfold generate_waveform_default generate_waveform
  rw [if_pos h]

theorem empty_buffer_invalidAudio_witness :
    generate_waveform_default [] = ([], some GWErr.invalidAudio) :=
  empty_buffer_invalidAudio [] rfl

/-- C9: a non-silent buffer whose downsampled length is between 4 and 7
gives `q = 1`, so the first quarter has exactly one element and its
spacing computation `total_width / (len(quarter) - 1)` divides by zero;
the call fails there and fewer than four images are produced. -/
theorem single_element_quarter_fails (y : List ℚ)
    (hnz : ∃ x ∈ y, x ≠ 0) (hge : 4 ≤ y.length) (hle : y.length ≤ 7) :
    generate_waveform_default y = ([], some GWErr.zeroDivision) ∧
    (generate_waveform_default y).1.length < 4 := by
  have hmain : generate_waveform_default y = ([], some GWErr.zeroDivision) := by
    unfold generate_waveform_default generate_waveform
    rw [if_neg (by omega)]
    have hstep : max 1 (y.length / 600) = 1 := by omega
    rw [hstep, everyNth_one]
    exact renderAll_quarters_len1 10 (normalize y)
      (by rw [normalize_length]; omega)
  exact ⟨hmain, by rw [hmain]; decide⟩

theorem single_element_quarter_fails_witness :
    generate_waveform_default [(1:ℚ), 0, 0, 0] = ([], some GWErr.zeroDivision) ∧
    (generate_waveform_default [(1:ℚ), 0, 0, 0]).1.length < 4 :=
  single_element_quarter_fails _ (by decide) (by decide) (by decide)

/-- C10: for any non-empty buffer at the default target point count, the
downsampled length is exactly `⌈N / max(1, N/600)⌉ = (N + s - 1) / s`,
it is never zero, and for `600 ≤ N < 1200` the stride is 1 so the
downsampled sequence is the whole buffer, of length `N`. -/
theorem downsample_length_default (y : List ℚ) (h : y ≠ []) :
    (downsample600 y).length
        = (y.length + defaultStride y.length - 1) / defaultStride y.length ∧
    0 < (downsample600 y).length ∧
    (600 ≤ y.length → y.length < 1200 →
      defaultStride y.length = 1 ∧ (downsample600 y).length = y.length) := by
  have hs : 1 ≤ defaultStride y.length := le_max_left _ _
  have hlen := everyNth_length _ hs y
  have hy : 1 ≤ y.length := List.length_pos.mpr h
  refine ⟨hlen, ?_, ?_⟩
  · show 0 < (everyNth (defaultStride y.length) y).length
    rw [hlen]
    exact Nat.div_pos (by omega) (by omega)
  · intro h6 h12
    have hone : defaultStride y.length = 1 := by
      rw [defaultStride]
      omega
    refine ⟨hone, ?_⟩
    show (everyNth (defaultStride y.length) y).length = y.length
    rw [hone, everyNth_one]

theorem downsample_length_default_witness :
    (List.replicate 700 (1:ℚ) ≠ []) ∧
    ((downsample600 (List.replicate 700 (1:ℚ))).length
        = ((List.replicate 700 (1:ℚ)).length
            + defaultStride (List.replicate 700 (1:ℚ)).length - 1)
          / defaultStride (List.replicate 700 (1:ℚ)).length ∧
      0 < (downsample600 (List.replicate 700 (1:ℚ))).length ∧
      (600 ≤ (List.replicate 700 (1:ℚ)).length →
        (List.replicate 700 (1:ℚ)).length < 1200 →
        defaultStride (List.replicate 700 (1:ℚ)).length = 1 ∧
          (downsample600 (List.replicate 700 (1:ℚ))).length
            = (List.replicate 700 (1:ℚ)).length)) := by
  have h700 : List.replicate 700 (1:ℚ) ≠ [] := by
    intro hnil
    have hl := congrArg List.length hnil
    rw [List.length_replicate] at hl
    exact absurd hl (by decide)
  exact ⟨h700, downsample_length_default _ h700⟩

end YTWaveform
